import Mathlib

/-!
Verification development for the toyou-cleanup repository.

The definitions below are a shallow embedding of the reconciliation and
deletion logic found in src/cleanups/picture.rs, src/main.rs and
src/config.rs.  Rust 64-bit integers are modelled as Int, Rust strings as
String, Rust Vec as List, and the two HashMaps (picture map keyed by pid,
space map keyed by uid, permission map keyed by uid) as insertion-ordered
association lists with overwrite-on-insert semantics.  Only membership in
the HashMap value set is ever used by the claims, so the arbitrary
iteration order of the Rust HashMap is represented by the list order.
-/

/-- Data row of the picture table (entity picture::Model): pid, byte size
and the three stored file paths. -/
structure Picture where
  pid : String
  size : Int
  original : String
  thumbnail : String
  watermark : String
deriving DecidableEq, Repr

/-- Data row of the user-picture link table (entity user_picture::Model). -/
structure UserPicture where
  id : Int
  uid : Int
  pid : String
  available : Int
  fileName : String
deriving DecidableEq, Repr

/-- Data row of the permission table (entity permission::Model). -/
structure Permission where
  uid : Int
  permission : String
  expiry : Int
  available : Int
deriving DecidableEq, Repr

/-- Quota tier (source name: struct Group in main.rs; renamed here because
Mathlib already declares Group): priority u16, storage cap and
per-file cap in MiB.  The caps are f32 constants in the source; every
constant used there (2048.0, 10240.0, 51200.0, 102400.0, 999999.0, 50.0,
100.0) is a whole number exactly representable in f32, so they are carried
as integers (their exact values in MiB). -/
structure QuotaGroup where
  priority : Nat
  storage : Int
  restrictions : Int
deriving DecidableEq, Repr

/-- Lookup in an association list, modelling HashMap::get. -/
def mapGet {κ α : Type} [DecidableEq κ] (k : κ) : List (κ × α) → Option α
  | [] => none
  | (k1, v) :: rest => if k1 = k then some v else mapGet k rest

/-- Insert into an association list with overwrite, modelling
HashMap::insert. -/
def mapInsert {κ α : Type} [DecidableEq κ] (k : κ) (v : α) : List (κ × α) → List (κ × α)
  | [] => [(k, v)]
  | (k1, v1) :: rest => if k1 = k then (k, v) :: rest else (k1, v1) :: mapInsert k v rest

/-- Round a natural number to the nearest multiple of 2 ^ e, ties to even:
the IEEE-754 round-to-nearest-even rule at granularity 2 ^ e. -/
def roundPow2 (n : Nat) (e : Nat) : Nat :=
  let p := 2 ^ e
  let q := n / p
  let r := n % p
  if 2 * r < p then q * p
  else if p < 2 * r then (q + 1) * p
  else if q % 2 = 0 then q * p else (q + 1) * p

/-- Binary length helper with explicit fuel (structural recursion, so the
kernel can evaluate it on literals). -/
def bitLenAux : Nat → Nat → Nat
  | 0, _ => 0
  | fuel + 1, n => if n = 0 then 0 else bitLenAux fuel (n / 2) + 1

/-- Number of binary digits of n (0 for 0); n lies in
[2 ^ (bitLen n - 1), 2 ^ bitLen n) for positive n. -/
def bitLen (n : Nat) : Nat := bitLenAux n n

/-- Exact value of the f32 nearest to the natural number n (for n below
2 ^ 63, far inside the f32 finite range): naturals below 2 ^ 24 are exact;
above, the 24-bit significand keeps the top 24 bits and rounds to nearest,
ties to even (spacing 2 ^ (bitLen n - 24) on the binade of n). -/
def roundF32Nat (n : Nat) : Nat :=
  if n < 2 ^ 24 then n else roundPow2 n (bitLen n - 24)

/-- Exact value of `n as f32` for an i64 value n, using the sign symmetry
of round-to-nearest-even. -/
def roundF32 (n : Int) : Int :=
  if 0 ≤ n then (roundF32Nat n.toNat : Int) else -((roundF32Nat (-n).toNat : Int))

/-- Byte count to MiB exactly as the code computes it:
`n as f32 / 1024.0 / 1024.0`.  For every i64 input the two divisions by
1024.0 are exact in f32 (they only shift the exponent, with no overflow or
underflow possible in the i64 range), so the f32 result is exactly the
rounded conversion divided by 2 ^ 20, represented here as a rational. -/
def mibF32 (n : Int) : Rat := (roundF32 n : Rat) / (1024 * 1024)

/-- The built-in default tier (const DEFAULT_GROUP in main.rs). -/
def DEFAULT_GROUP : QuotaGroup := ⟨0, 2048, 50⟩

/-- fn get_group in main.rs: tier bundle for a lowercased permission name. -/
def get_group (name : String) : QuotaGroup :=
  if name = "started" then ⟨1, 10240, 50⟩
  else if name = "advanced" then ⟨2, 51200, 100⟩
  else if name = "professional" then ⟨3, 102400, 999999⟩
  else ⟨0, 2048, 50⟩

/-- The millisecond timestamp 180 days before now, modelling
`Local::now().checked_sub_days(Days::new(180)).timestamp_millis()` with
fixed 86400000-millisecond days. -/
def expiryCutoff (nowMs : Int) : Int := nowMs - 180 * 86400000

/-- Loop body of fn get_user_group in src/cleanups/picture.rs: skip
unavailable grants and grants whose nonzero expiry lies before the 180-day
cutoff; otherwise install the grant group, replacing an existing entry
only when the new priority is strictly higher. -/
def process_permission (nowMs : Int) (m : List (Int × (QuotaGroup × Int))) (p : Permission) :
    List (Int × (QuotaGroup × Int)) :=
  if p.available = 0 then m
  else if p.expiry ≠ 0 ∧ p.expiry < expiryCutoff nowMs then m
  else
    match mapGet p.uid m with
    | none => mapInsert p.uid (get_group p.permission.toLower, p.expiry) m
    | some (old, _e) =>
      let gNew := get_group p.permission.toLower
      if old.priority < gNew.priority then mapInsert p.uid (gNew, p.expiry) m else m

/-- fn get_user_group in src/cleanups/picture.rs. -/
def get_user_group (nowMs : Int) (perms : List Permission) : List (Int × (QuotaGroup × Int)) :=
  perms.foldl (process_permission nowMs) []

/-- The group consulted by get_used_pictures for a uid: the permission-map
entry when present, DEFAULT_GROUP otherwise. -/
def group_of (permMap : List (Int × (QuotaGroup × Int))) (uid : Int) : QuotaGroup :=
  match mapGet uid permMap with
  | none => DEFAULT_GROUP
  | some (g, _e) => g

/-- The tier that quota resolution assigns to a user. -/
def resolved_group (nowMs : Int) (perms : List Permission) (uid : Int) : QuotaGroup :=
  group_of (get_user_group nowMs perms) uid

/-- A grant participates in quota resolution: available is nonzero and the
expiry is zero or not before the 180-day cutoff (the negation of the two
skip conditions in get_user_group). -/
def included_grant (nowMs : Int) (p : Permission) : Bool :=
  decide (p.available ≠ 0) && (decide (p.expiry = 0) || decide (expiryCutoff nowMs ≤ p.expiry))

/-- Projection of process_permission onto the entry of a single uid: the
same skip conditions and the same strictly-higher-priority replacement
rule, acting on just that entry of the map. -/
def resolve_step (nowMs : Int) (uid : Int) (acc : Option (QuotaGroup × Int))
    (p : Permission) : Option (QuotaGroup × Int) :=
  if p.available = 0 then acc
  else if p.expiry ≠ 0 ∧ p.expiry < expiryCutoff nowMs then acc
  else if p.uid = uid then
    match acc with
    | none => some (get_group p.permission.toLower, p.expiry)
    | some (old, e) =>
      if old.priority < (get_group p.permission.toLower).priority then
        some (get_group p.permission.toLower, p.expiry)
      else some (old, e)
  else acc

/-- Quota resolution seen from a single user. -/
def resolve_one (nowMs : Int) (uid : Int) (perms : List Permission) :
    Option (QuotaGroup × Int) :=
  perms.foldl (resolve_step nowMs uid) none

/-- Group selected by an optional permission-map entry, with the default
tier as fallback. -/
def group_of_opt : Option (QuotaGroup × Int) → QuotaGroup
  | none => DEFAULT_GROUP
  | some (g, _e) => g

/-- Mutable state of the link-processing loop in fn get_used_pictures:
the picture map (entries overwritten with the pid sentinel "added" once
claimed), the per-user byte totals, and the used / disabled accumulators. -/
structure RecState where
  pictureMap : List (String × Picture)
  spaceMap : List (Int × Int)
  usedVec : List Picture
  disableVec : List UserPicture
deriving DecidableEq, Repr

/-- State before any link is processed: all pictures indexed by pid,
everything else empty. -/
def init_state (pictures : List Picture) : RecState :=
  ⟨pictures.foldl (fun m p => mapInsert p.pid p m) [], [], [], []⟩

/-- Loop body of the link loop in fn get_used_pictures
(src/cleanups/picture.rs lines 53-101), translated branch for branch.
The source compares `used as f32 / 1024.0 / 1024.0 >= group.storage` and
`size as f32 / 1024.0 / 1024.0 > group.restrictions`; as the two divisions
by 1024.0 are exact in f32 and the caps are whole MiB counts, those
comparisons equal `storage * 1048576 ≤ roundF32 used` and
`restrictions * 1048576 < roundF32 size` over the integers (the theorems
le_mibF32_iff and lt_mibF32_iff below prove the equality with the MiB
reading), which keeps every branch condition kernel-decidable. -/
def process_user_picture (availableUsers : List Int) (permMap : List (Int × (QuotaGroup × Int)))
    (s : RecState) (up : UserPicture) : RecState :=
  if up.available = 1 then
    match mapGet up.pid s.pictureMap with
    | none => { s with disableVec := s.disableVec ++ [up] }
    | some pic =>
      if up.uid ∉ availableUsers then { s with disableVec := s.disableVec ++ [up] }
      else if pic.pid ≠ "added" then
        let used := (mapGet up.uid s.spaceMap).getD 0 + pic.size
        let group := group_of permMap up.uid
        if group.storage * 1048576 ≤ roundF32 used then
          { s with disableVec := s.disableVec ++ [up] }
        else if group.restrictions * 1048576 < roundF32 pic.size then
          { s with disableVec := s.disableVec ++ [up] }
        else
          { s with
            spaceMap := mapInsert up.uid used s.spaceMap
            usedVec := s.usedVec ++ [pic]
            pictureMap := mapInsert up.pid { pic with pid := "added" } s.pictureMap }
      else s
  else { s with disableVec := s.disableVec ++ [up] }

/-- The whole link loop. -/
def run_links (availableUsers : List Int) (permMap : List (Int × (QuotaGroup × Int)))
    (s : RecState) (ups : List UserPicture) : RecState :=
  ups.foldl (process_user_picture availableUsers permMap) s

/-- fn get_used_pictures in src/cleanups/picture.rs: returns
(unused pictures, used pictures, disabled links).  The final loop pushes
every picture-map value whose pid is not the sentinel into the unused
vector. -/
def get_used_pictures (availableUsers : List Int) (pictures : List Picture)
    (userPictures : List UserPicture) (nowMs : Int) (permissions : List Permission) :
    List Picture × List Picture × List UserPicture :=
  let s := run_links availableUsers (get_user_group nowMs permissions)
    (init_state pictures) userPictures
  ((s.pictureMap.map Prod.snd).filter (fun p => decide (p.pid ≠ "added")), s.usedVec, s.disableVec)

/-- fn get_used_user_picture in src/cleanups/picture.rs: ids of the input
links that are not (by value) in the disabled list. -/
def get_used_user_picture (unusedRef : List UserPicture) : List UserPicture → List Int
  | [] => []
  | up :: rest =>
    if up ∈ unusedRef then get_used_user_picture unusedRef rest
    else up.id :: get_used_user_picture unusedRef rest

/-- Result of one database delete as reported by the driver, the outcome
of `picture.delete(&db).await` in fn delete_database. -/
inductive DeleteResult where
  | ok (rowsAffected : Nat)
  | err (msg : String)
deriving DecidableEq, Repr

/-- Whether a delete result is the error case. -/
def DeleteResult.isErr : DeleteResult → Bool
  | DeleteResult.err _ => true
  | DeleteResult.ok _ => false

/-- Observable outcome of a completed delete_database run: the rows whose
delete was attempted, and the rows whose delete returned an error and were
logged and skipped. -/
structure DeleteRun (α : Type) where
  processed : List α
  errorLogged : List α
deriving DecidableEq, Repr

/-- fn delete_database in src/cleanups/picture.rs, with the database
modelled as an oracle from row to driver result.  An Ok result flows into
`assert_eq!(a.rows_affected, 1)`: a count other than one panics the task,
modelled as none (the caller awaits the join handle with unwrap, so the
panic aborts the run).  An Err result is logged and the loop continues. -/
def delete_database {α : Type} (exec : α → DeleteResult) : List α → Option (DeleteRun α)
  | [] => some ⟨[], []⟩
  | r :: rest =>
    match exec r with
    | DeleteResult.err _ =>
      (delete_database exec rest).map (fun run => ⟨r :: run.processed, r :: run.errorLogged⟩)
    | DeleteResult.ok n =>
      if n = 1 then
        (delete_database exec rest).map (fun run => ⟨r :: run.processed, run.errorLogged⟩)
      else none

/-- Observable outcome of the trash sweep: subdirectory names removed
recursively (fs::remove_dir_all) and names logged as unparseable. -/
structure TrashRun where
  removed : List String
  logged : List String
deriving DecidableEq, Repr

/-- The trash-pruning loop of fn check_trash_dir in src/config.rs (also
inlined in main.rs lines 87-100).  `parse` abstracts
`DateTime::parse_from_str(name + " 00:00:00 +0800", ...)`, returning the
millisecond instant of midnight UTC+8 on the parsed calendar date, or none
when the name does not parse; `aWeekEarlier` is the instant of now minus
seven days.  A parse failure is logged and the directory left untouched; a
parsed date before `aWeekEarlier` is removed recursively; in both cases
the loop continues with the remaining directories. -/
def trash_step (parse : String → Option Int) (aWeekEarlier : Int)
    (run : TrashRun) (name : String) : TrashRun :=
  match parse name with
  | none => { run with logged := run.logged ++ [name] }
  | some date =>
    if date < aWeekEarlier then { run with removed := run.removed ++ [name] } else run

/-- The whole trash-pruning loop. -/
def check_trash_dir (parse : String → Option Int) (aWeekEarlier : Int)
    (dirs : List String) : TrashRun :=
  dirs.foldl (trash_step parse aWeekEarlier) ⟨[], []⟩

/-! General lemmas about the association-list maps and the f32 model. -/

theorem mapGet_insert {κ α : Type} [DecidableEq κ] (k q : κ) (v : α) (m : List (κ × α)) :
    mapGet q (mapInsert k v m) = if k = q then some v else mapGet q m := by
  induction m with
  | nil => simp [mapInsert, mapGet]
  | cons kv rest ih =>
    obtain ⟨k1, v1⟩ := kv
    by_cases h1 : k1 = k
    · subst h1
      by_cases h2 : k1 = q <;> simp [mapInsert, mapGet, h2]
    · by_cases h2 : k1 = q
      · subst h2
        have hkq : ¬ k = k1 := fun h => h1 h.symm
        simp [mapInsert, mapGet, h1, hkq]
      · simp [mapInsert, mapGet, h1, h2, ih]

theorem mem_map_snd_of_mapGet {κ α : Type} [DecidableEq κ] {k : κ} {v : α}
    {m : List (κ × α)} (h : mapGet k m = some v) : v ∈ m.map Prod.snd := by
  induction m with
  | nil => simp [mapGet] at h
  | cons kv rest ih =>
    obtain ⟨k1, v1⟩ := kv
    by_cases h1 : k1 = k
    · simp [mapGet, h1] at h
      simp [h]
    · simp [mapGet, h1] at h
      simpa using Or.inr (ih h)

/-- The integer comparison used in the embedding agrees with the MiB
reading of the f32 comparison in the source: cap ≤ size-in-MiB (as f32)
exactly when cap * 2 ^ 20 ≤ rounded byte count. -/
theorem le_mibF32_iff (s n : Int) : ((s : Rat) ≤ mibF32 n) ↔ s * 1048576 ≤ roundF32 n := by
  unfold mibF32
  rw [le_div_iff₀ (by norm_num : (0 : Rat) < 1024 * 1024)]
  rw [show ((1024 : Rat) * 1024) = ((1048576 : Int) : Rat) by norm_num]
  rw [← Int.cast_mul]
  exact Int.cast_le

/-- Strict version of le_mibF32_iff, matching the per-file check. -/
theorem lt_mibF32_iff (s n : Int) : ((s : Rat) < mibF32 n) ↔ s * 1048576 < roundF32 n := by
  unfold mibF32
  rw [lt_div_iff₀ (by norm_num : (0 : Rat) < 1024 * 1024)]
  rw [show ((1024 : Rat) * 1024) = ((1048576 : Int) : Rat) by norm_num]
  rw [← Int.cast_mul]
  exact Int.cast_lt

/-! Case-analysis lemmas for one step of the link loop. -/

theorem step_disable_of_unavailable (availableUsers : List Int)
    (permMap : List (Int × (QuotaGroup × Int))) (s : RecState) (up : UserPicture)
    (h : up.uid ∉ availableUsers) :
    process_user_picture availableUsers permMap s up =
      { s with disableVec := s.disableVec ++ [up] } := by
  by_cases ha : up.available = 1
  · cases hm : mapGet up.pid s.pictureMap with
    | none => simp [process_user_picture, ha, hm]
    | some pic => simp [process_user_picture, ha, hm, h]
  · simp [process_user_picture, ha]

theorem step_noop_of_claimed (availableUsers : List Int)
    (permMap : List (Int × (QuotaGroup × Int))) (s : RecState) (up : UserPicture)
    (pic : Picture) (ha : up.available = 1) (hm : mapGet up.pid s.pictureMap = some pic)
    (hpid : pic.pid = "added") (hu : up.uid ∈ availableUsers) :
    process_user_picture availableUsers permMap s up = s := by
  simp [process_user_picture, ha, hm, hu, hpid]

theorem step_disable_mono (availableUsers : List Int)
    (permMap : List (Int × (QuotaGroup × Int))) (s : RecState) (up x : UserPicture)
    (h : x ∈ s.disableVec) :
    x ∈ (process_user_picture availableUsers permMap s up).disableVec := by
  by_cases ha : up.available = 1
  · cases hm : mapGet up.pid s.pictureMap with
    | none => simp [process_user_picture, ha, hm, h]
    | some pic =>
      by_cases hu : up.uid ∈ availableUsers
      · by_cases hpid : pic.pid = "added"
        · simp [process_user_picture, ha, hm, hu, hpid, h]
        · by_cases hs : (group_of permMap up.uid).storage * 1048576 ≤
              roundF32 ((mapGet up.uid s.spaceMap).getD 0 + pic.size)
          · simp [process_user_picture, ha, hm, hu, hpid, hs, h]
          · by_cases hr : (group_of permMap up.uid).restrictions * 1048576 <
                roundF32 pic.size
            · simp [process_user_picture, ha, hm, hu, hpid, hs, hr, h]
            · simp [process_user_picture, ha, hm, hu, hpid, hs, hr, h]
      · simp [process_user_picture, ha, hm, hu, h]
  · simp [process_user_picture, ha, h]

theorem step_disable_sub (availableUsers : List Int)
    (permMap : List (Int × (QuotaGroup × Int))) (s : RecState) (up x : UserPicture)
    (h : x ∈ (process_user_picture availableUsers permMap s up).disableVec) :
    x ∈ s.disableVec ∨ x = up := by
  by_cases ha : up.available = 1
  · cases hm : mapGet up.pid s.pictureMap with
    | none => simp [process_user_picture, ha, hm] at h; tauto
    | some pic =>
      by_cases hu : up.uid ∈ availableUsers
      · by_cases hpid : pic.pid = "added"
        · simp [process_user_picture, ha, hm, hu, hpid] at h; tauto
        · by_cases hs : (group_of permMap up.uid).storage * 1048576 ≤
              roundF32 ((mapGet up.uid s.spaceMap).getD 0 + pic.size)
          · simp [process_user_picture, ha, hm, hu, hpid, hs] at h; tauto
          · by_cases hr : (group_of permMap up.uid).restrictions * 1048576 <
                roundF32 pic.size
            · simp [process_user_picture, ha, hm, hu, hpid, hs, hr] at h; tauto
            · simp [process_user_picture, ha, hm, hu, hpid, hs, hr] at h; tauto
      · simp [process_user_picture, ha, hm, hu] at h; tauto
  · simp [process_user_picture, ha] at h; tauto

theorem step_space_cases (availableUsers : List Int)
    (permMap : List (Int × (QuotaGroup × Int))) (s : RecState) (up : UserPicture) :
    (process_user_picture availableUsers permMap s up).spaceMap = s.spaceMap ∨
    ∃ pic, mapGet up.pid s.pictureMap = some pic ∧
      roundF32 ((mapGet up.uid s.spaceMap).getD 0 + pic.size) <
        (group_of permMap up.uid).storage * 1048576 ∧
      (process_user_picture availableUsers permMap s up).spaceMap =
        mapInsert up.uid ((mapGet up.uid s.spaceMap).getD 0 + pic.size) s.spaceMap := by
  by_cases ha : up.available = 1
  · cases hm : mapGet up.pid s.pictureMap with
    | none => simp [process_user_picture, ha, hm]
    | some pic =>
      by_cases hu : up.uid ∈ availableUsers
      · by_cases hpid : pic.pid = "added"
        · simp [process_user_picture, ha, hm, hu, hpid]
        · by_cases hs : (group_of permMap up.uid).storage * 1048576 ≤
              roundF32 ((mapGet up.uid s.spaceMap).getD 0 + pic.size)
          · simp [process_user_picture, ha, hm, hu, hpid, hs]
          · by_cases hr : (group_of permMap up.uid).restrictions * 1048576 <
                roundF32 pic.size
            · simp [process_user_picture, ha, hm, hu, hpid, hs, hr]
            · refine Or.inr ⟨pic, rfl, by omega, ?_⟩
              simp [process_user_picture, ha, hm, hu, hpid, hs, hr]
      · simp [process_user_picture, ha, hm, hu]
  · simp [process_user_picture, ha]

theorem step_used_sub (availableUsers : List Int)
    (permMap : List (Int × (QuotaGroup × Int))) (s : RecState) (up : UserPicture)
    (x : Picture) (h : x ∈ (process_user_picture availableUsers permMap s up).usedVec) :
    x ∈ s.usedVec ∨ x.pid ≠ "added" := by
  by_cases ha : up.available = 1
  · cases hm : mapGet up.pid s.pictureMap with
    | none => simp [process_user_picture, ha, hm] at h; tauto
    | some pic =>
      by_cases hu : up.uid ∈ availableUsers
      · by_cases hpid : pic.pid = "added"
        · simp [process_user_picture, ha, hm, hu, hpid] at h; tauto
        · by_cases hs : (group_of permMap up.uid).storage * 1048576 ≤
              roundF32 ((mapGet up.uid s.spaceMap).getD 0 + pic.size)
          · simp [process_user_picture, ha, hm, hu, hpid, hs] at h; tauto
          · by_cases hr : (group_of permMap up.uid).restrictions * 1048576 <
                roundF32 pic.size
            · simp [process_user_picture, ha, hm, hu, hpid, hs, hr] at h; tauto
            · simp [process_user_picture, ha, hm, hu, hpid, hs, hr] at h
              rcases h with h | h
              · exact Or.inl h
              · exact Or.inr (by simp [h, hpid])
      · simp [process_user_picture, ha, hm, hu] at h; tauto
  · simp [process_user_picture, ha] at h; tauto

theorem step_pictureMap_preserve (availableUsers : List Int)
    (permMap : List (Int × (QuotaGroup × Int))) (s : RecState) (up : UserPicture)
    (k : String) (q : Picture)
    (h : mapGet k (process_user_picture availableUsers permMap s up).pictureMap = some q)
    (hq : q.pid ≠ "added") : mapGet k s.pictureMap = some q := by
  by_cases ha : up.available = 1
  · cases hm : mapGet up.pid s.pictureMap with
    | none => simpa [process_user_picture, ha, hm] using h
    | some pic =>
      by_cases hu : up.uid ∈ availableUsers
      · by_cases hpid : pic.pid = "added"
        · simpa [process_user_picture, ha, hm, hu, hpid] using h
        · by_cases hs : (group_of permMap up.uid).storage * 1048576 ≤
              roundF32 ((mapGet up.uid s.spaceMap).getD 0 + pic.size)
          · simpa [process_user_picture, ha, hm, hu, hpid, hs] using h
          · by_cases hr : (group_of permMap up.uid).restrictions * 1048576 <
                roundF32 pic.size
            · simpa [process_user_picture, ha, hm, hu, hpid, hs, hr] using h
            · simp [process_user_picture, ha, hm, hu, hpid, hs, hr] at h
              rw [mapGet_insert] at h
              by_cases hk : up.pid = k
              · simp [hk] at h
                rw [← h] at hq
                simp at hq
              · simpa [hk] using h
      · simpa [process_user_picture, ha, hm, hu] using h
  · simpa [process_user_picture, ha] using h

theorem step_disable_of_storage (availableUsers : List Int)
    (permMap : List (Int × (QuotaGroup × Int))) (s : RecState) (up : UserPicture)
    (pic : Picture) (ha : up.available = 1) (hm : mapGet up.pid s.pictureMap = some pic)
    (hpid : pic.pid ≠ "added") (hu : up.uid ∈ availableUsers)
    (hs : (group_of permMap up.uid).storage * 1048576 ≤
      roundF32 ((mapGet up.uid s.spaceMap).getD 0 + pic.size)) :
    process_user_picture availableUsers permMap s up =
      { s with disableVec := s.disableVec ++ [up] } := by
  simp [process_user_picture, ha, hm, hu, hpid, hs]

theorem step_disable_of_too_large (availableUsers : List Int)
    (permMap : List (Int × (QuotaGroup × Int))) (s : RecState) (up : UserPicture)
    (pic : Picture) (ha : up.available = 1) (hm : mapGet up.pid s.pictureMap = some pic)
    (hpid : pic.pid ≠ "added") (hu : up.uid ∈ availableUsers)
    (hs : ¬ (group_of permMap up.uid).storage * 1048576 ≤
      roundF32 ((mapGet up.uid s.spaceMap).getD 0 + pic.size))
    (hr : (group_of permMap up.uid).restrictions * 1048576 < roundF32 pic.size) :
    process_user_picture availableUsers permMap s up =
      { s with disableVec := s.disableVec ++ [up] } := by
  simp [process_user_picture, ha, hm, hu, hpid, hs, hr]

theorem step_accept (availableUsers : List Int)
    (permMap : List (Int × (QuotaGroup × Int))) (s : RecState) (up : UserPicture)
    (pic : Picture) (ha : up.available = 1) (hm : mapGet up.pid s.pictureMap = some pic)
    (hpid : pic.pid ≠ "added") (hu : up.uid ∈ availableUsers)
    (hs : ¬ (group_of permMap up.uid).storage * 1048576 ≤
      roundF32 ((mapGet up.uid s.spaceMap).getD 0 + pic.size))
    (hr : ¬ (group_of permMap up.uid).restrictions * 1048576 < roundF32 pic.size) :
    process_user_picture availableUsers permMap s up =
      { s with
        spaceMap := mapInsert up.uid ((mapGet up.uid s.spaceMap).getD 0 + pic.size) s.spaceMap
        usedVec := s.usedVec ++ [pic]
        pictureMap := mapInsert up.pid { pic with pid := "added" } s.pictureMap } := by
  simp [process_user_picture, ha, hm, hu, hpid, hs, hr]

/-! Lemmas about the whole link loop, by induction along the link list. -/

theorem run_disable_mono (availableUsers : List Int)
    (permMap : List (Int × (QuotaGroup × Int))) (s : RecState) (ups : List UserPicture)
    (x : UserPicture) (h : x ∈ s.disableVec) :
    x ∈ (run_links availableUsers permMap s ups).disableVec := by
  induction ups generalizing s with
  | nil => exact h
  | cons up rest ih =>
    exact ih _ (step_disable_mono availableUsers permMap s up x h)

theorem run_disable_of_unavailable (availableUsers : List Int)
    (permMap : List (Int × (QuotaGroup × Int))) (s : RecState) (ups : List UserPicture)
    (up : UserPicture) (hmem : up ∈ ups) (hu : up.uid ∉ availableUsers) :
    up ∈ (run_links availableUsers permMap s ups).disableVec := by
  induction ups generalizing s with
  | nil => cases hmem
  | cons hd rest ih =>
    rcases List.mem_cons.mp hmem with rfl | hmem2
    · exact run_disable_mono availableUsers permMap _ rest up
        (by rw [step_disable_of_unavailable availableUsers permMap s up hu]; simp)
    · exact ih _ hmem2

theorem run_disable_sub (availableUsers : List Int)
    (permMap : List (Int × (QuotaGroup × Int))) (s : RecState) (ups : List UserPicture)
    (x : UserPicture) (h : x ∈ (run_links availableUsers permMap s ups).disableVec) :
    x ∈ s.disableVec ∨ x ∈ ups := by
  induction ups generalizing s with
  | nil => exact Or.inl h
  | cons up rest ih =>
    rcases ih _ h with h2 | h2
    · rcases step_disable_sub availableUsers permMap s up x h2 with h3 | h3
      · exact Or.inl h3
      · exact Or.inr (by simp [h3])
    · exact Or.inr (List.mem_cons_of_mem _ h2)

theorem run_used_sub (availableUsers : List Int)
    (permMap : List (Int × (QuotaGroup × Int))) (s : RecState) (ups : List UserPicture)
    (x : Picture) (h : x ∈ (run_links availableUsers permMap s ups).usedVec) :
    x ∈ s.usedVec ∨ x.pid ≠ "added" := by
  induction ups generalizing s with
  | nil => exact Or.inl h
  | cons up rest ih =>
    rcases ih _ h with h2 | h2
    · exact step_used_sub availableUsers permMap s up x h2
    · exact Or.inr h2

theorem run_pictureMap_preserve (availableUsers : List Int)
    (permMap : List (Int × (QuotaGroup × Int))) (s : RecState) (ups : List UserPicture)
    (k : String) (q : Picture)
    (h : mapGet k (run_links availableUsers permMap s ups).pictureMap = some q)
    (hq : q.pid ≠ "added") : mapGet k s.pictureMap = some q := by
  induction ups generalizing s with
  | nil => exact h
  | cons up rest ih =>
    exact step_pictureMap_preserve availableUsers permMap s up k q (ih _ h) hq

theorem run_space_inv (availableUsers : List Int)
    (permMap : List (Int × (QuotaGroup × Int))) (s : RecState) (ups : List UserPicture)
    (hinv : ∀ uid v, mapGet uid s.spaceMap = some v →
      roundF32 v < (group_of permMap uid).storage * 1048576) :
    ∀ uid v, mapGet uid (run_links availableUsers permMap s ups).spaceMap = some v →
      roundF32 v < (group_of permMap uid).storage * 1048576 := by
  induction ups generalizing s with
  | nil => exact hinv
  | cons up rest ih =>
    apply ih
    intro uid v hv
    rcases step_space_cases availableUsers permMap s up with heq | ⟨pic, _hm, hlt, heq⟩
    · exact hinv uid v (heq ▸ hv)
    · rw [heq, mapGet_insert] at hv
      by_cases hk : up.uid = uid
      · simp [hk] at hv
        rw [← hv]
        exact hk ▸ hlt
      · exact hinv uid v (by simpa [hk] using hv)

/-! Lemmas about the initial picture map. -/

theorem mapGet_build_skip (l : List Picture) (m0 : List (String × Picture)) (k : String)
    (h : ∀ Q ∈ l, Q.pid ≠ k) :
    mapGet k (l.foldl (fun m p => mapInsert p.pid p m) m0) = mapGet k m0 := by
  induction l generalizing m0 with
  | nil => rfl
  | cons P rest ih =>
    have hP : P.pid ≠ k := h P (by simp)
    rw [List.foldl_cons, ih _ (fun Q hQ => h Q (by simp [hQ])), mapGet_insert]
    simp [hP]

theorem mapGet_build (l : List Picture) (hnd : (l.map Picture.pid).Nodup) (P : Picture)
    (hP : P ∈ l) (m0 : List (String × Picture)) :
    mapGet P.pid (l.foldl (fun m p => mapInsert p.pid p m) m0) = some P := by
  induction l generalizing m0 with
  | nil => cases hP
  | cons Q rest ih =>
    rw [List.map_cons, List.nodup_cons] at hnd
    rcases List.mem_cons.mp hP with rfl | hP2
    · rw [List.foldl_cons,
        mapGet_build_skip rest _ P.pid (fun R hR hc => hnd.1 (hc ▸ List.mem_map_of_mem _ hR)),
        mapGet_insert]
      simp
    · exact ih hnd.2 hP2 _

theorem mapGet_build_key (l : List Picture) (m0 : List (String × Picture))
    (hm0 : ∀ k v, mapGet k m0 = some v → Picture.pid v = k) (k : String) (v : Picture)
    (h : mapGet k (l.foldl (fun m p => mapInsert p.pid p m) m0) = some v) :
    v.pid = k := by
  induction l generalizing m0 with
  | nil => exact hm0 k v h
  | cons P rest ih =>
    rw [List.foldl_cons] at h
    refine ih _ ?_ h
    intro k2 v2 h2
    rw [mapGet_insert] at h2
    by_cases hk : P.pid = k2
    · simp [hk] at h2
      rw [← h2, ← hk]
    · exact hm0 k2 v2 (by simpa [hk] using h2)

/-! Characterization of the surviving-link-id computation. -/

theorem mem_get_used_user_picture (unusedRef : List UserPicture) (l : List UserPicture)
    (x : Int) :
    x ∈ get_used_user_picture unusedRef l ↔
      ∃ u, u ∈ l ∧ u ∉ unusedRef ∧ u.id = x := by
  induction l with
  | nil => simp [get_used_user_picture]
  | cons u rest ih =>
    by_cases hu : u ∈ unusedRef
    · simp only [get_used_user_picture, if_pos hu, ih]
      constructor
      · rintro ⟨w, hw1, hw2, hw3⟩
        exact ⟨w, List.mem_cons_of_mem _ hw1, hw2, hw3⟩
      · rintro ⟨w, hw1, hw2, hw3⟩
        rcases List.mem_cons.mp hw1 with rfl | hw1b
        · exact absurd hu hw2
        · exact ⟨w, hw1b, hw2, hw3⟩
    · simp only [get_used_user_picture, if_neg hu, List.mem_cons, ih]
      constructor
      · rintro (rfl | ⟨w, hw1, hw2, hw3⟩)
        · exact ⟨u, Or.inl rfl, hu, rfl⟩
        · exact ⟨w, Or.inr hw1, hw2, hw3⟩
      · rintro ⟨w, hw1, hw2, hw3⟩
        rcases hw1 with rfl | hw1b
        · exact Or.inl hw3.symm
        · exact Or.inr ⟨w, hw1b, hw2, hw3⟩

/-! Lemmas about the trash-pruning loop. -/

theorem trash_step_removed_keeps (parse : String → Option Int) (aWeekEarlier : Int)
    (acc : TrashRun) (d name : String) (hnd : name ≠ d) :
    (name ∈ (trash_step parse aWeekEarlier acc d).removed ↔ name ∈ acc.removed) := by
  cases hp : parse d with
  | none => simp [trash_step, hp]
  | some t =>
    by_cases hlt : t < aWeekEarlier <;> simp [trash_step, hp, hlt, hnd]

theorem trash_step_logged_keeps (parse : String → Option Int) (aWeekEarlier : Int)
    (acc : TrashRun) (d name : String) (hnd : name ≠ d) :
    (name ∈ (trash_step parse aWeekEarlier acc d).logged ↔ name ∈ acc.logged) := by
  cases hp : parse d with
  | none => simp [trash_step, hp, hnd]
  | some t =>
    by_cases hlt : t < aWeekEarlier <;> simp [trash_step, hp, hlt]

theorem trash_removed_iff (parse : String → Option Int) (aWeekEarlier : Int)
    (dirs : List String) (acc : TrashRun) (name : String) :
    name ∈ (dirs.foldl (trash_step parse aWeekEarlier) acc).removed ↔
      name ∈ acc.removed ∨
        (name ∈ dirs ∧ ∃ t, parse name = some t ∧ t < aWeekEarlier) := by
  induction dirs generalizing acc with
  | nil => simp
  | cons d rest ih =>
    rw [List.foldl_cons, ih]
    by_cases hnd : name = d
    · subst hnd
      cases hp : parse name with
      | none =>
        have hk : name ∈ (trash_step parse aWeekEarlier acc name).removed ↔
            name ∈ acc.removed := by simp [trash_step, hp]
        rw [hk]
        simp only [List.mem_cons]
        constructor
        · rintro (h | h)
          · exact Or.inl h
          · exact Or.inr ⟨Or.inr h.1, h.2⟩
        · rintro (h | ⟨_h1, t, h2, _h3⟩)
          · exact Or.inl h
          · cases h2
      | some t =>
        by_cases hlt : t < aWeekEarlier
        · have hk : name ∈ (trash_step parse aWeekEarlier acc name).removed := by
            simp [trash_step, hp, hlt]
          exact iff_of_true (Or.inl hk)
            (Or.inr ⟨List.mem_cons_self name rest, t, rfl, hlt⟩)
        · have hk : name ∈ (trash_step parse aWeekEarlier acc name).removed ↔
              name ∈ acc.removed := by simp [trash_step, hp, hlt]
          rw [hk]
          simp only [List.mem_cons]
          constructor
          · rintro (h | h)
            · exact Or.inl h
            · exact Or.inr ⟨Or.inr h.1, h.2⟩
          · rintro (h | ⟨_h1, t2, h2, h3⟩)
            · exact Or.inl h
            · cases h2
              exact absurd h3 hlt
    · rw [trash_step_removed_keeps parse aWeekEarlier acc d name hnd]
      simp only [List.mem_cons]
      constructor
      · rintro (h | h)
        · exact Or.inl h
        · exact Or.inr ⟨Or.inr h.1, h.2⟩
      · rintro (h | ⟨h1, h2⟩)
        · exact Or.inl h
        · rcases h1 with h1a | h1b
          · exact absurd h1a hnd
          · exact Or.inr ⟨h1b, h2⟩

theorem trash_logged_iff (parse : String → Option Int) (aWeekEarlier : Int)
    (dirs : List String) (acc : TrashRun) (name : String) :
    name ∈ (dirs.foldl (trash_step parse aWeekEarlier) acc).logged ↔
      name ∈ acc.logged ∨ (name ∈ dirs ∧ parse name = none) := by
  induction dirs generalizing acc with
  | nil => simp
  | cons d rest ih =>
    rw [List.foldl_cons, ih]
    by_cases hnd : name = d
    · subst hnd
      cases hp : parse name with
      | none =>
        have hk : name ∈ (trash_step parse aWeekEarlier acc name).logged := by
          simp [trash_step, hp]
        exact iff_of_true (Or.inl hk) (Or.inr ⟨List.mem_cons_self name rest, rfl⟩)
      | some t =>
        have hk : name ∈ (trash_step parse aWeekEarlier acc name).logged ↔
            name ∈ acc.logged := by
          by_cases hlt : t < aWeekEarlier <;> simp [trash_step, hp, hlt]
        rw [hk]
        simp only [List.mem_cons]
        constructor
        · rintro (h | h)
          · exact Or.inl h
          · exact Or.inr ⟨Or.inr h.1, h.2⟩
        · rintro (h | ⟨_h1, h2⟩)
          · exact Or.inl h
          · cases h2
    · rw [trash_step_logged_keeps parse aWeekEarlier acc d name hnd]
      simp only [List.mem_cons]
      constructor
      · rintro (h | h)
        · exact Or.inl h
        · exact Or.inr ⟨Or.inr h.1, h.2⟩
      · rintro (h | ⟨h1, h2⟩)
        · exact Or.inl h
        · rcases h1 with h1a | h1b
          · exact absurd h1a hnd
          · exact Or.inr ⟨h1b, h2⟩

/-! Lemmas about the database-delete loop. -/

theorem delete_database_none_iff {α : Type} (exec : α → DeleteResult) (rows : List α) :
    delete_database exec rows = none ↔
      ∃ r ∈ rows, ∃ n, exec r = DeleteResult.ok n ∧ n ≠ 1 := by
  induction rows with
  | nil => simp [delete_database]
  | cons r rest ih =>
    cases he : exec r with
    | err m => simp [delete_database, he, ih, Option.map_eq_none]
    | ok n =>
      by_cases hn : n = 1
      · subst hn
        simp [delete_database, he, ih, Option.map_eq_none]
      · simp only [delete_database, he, if_neg hn]
        exact iff_of_true trivial ⟨r, by simp, n, he, hn⟩

theorem delete_database_ok {α : Type} (exec : α → DeleteResult) (rows : List α)
    (h : ∀ r ∈ rows, ∀ n, exec r = DeleteResult.ok n → n = 1) :
    delete_database exec rows =
      some ⟨rows, rows.filter (fun r => (exec r).isErr)⟩ := by
  induction rows with
  | nil => simp [delete_database]
  | cons r rest ih =>
    have hrest := ih (fun x hx n hn => h x (List.mem_cons_of_mem _ hx) n hn)
    cases he : exec r with
    | err m =>
      simp [delete_database, he, hrest, DeleteResult.isErr]
    | ok n =>
      have hn : n = 1 := h r (by simp) n he
      subst hn
      simp [delete_database, he, hrest, DeleteResult.isErr]

/-! Lemmas about quota resolution. -/

theorem group_of_eq_opt (permMap : List (Int × (QuotaGroup × Int))) (uid : Int) :
    group_of permMap uid = group_of_opt (mapGet uid permMap) := by
  unfold group_of group_of_opt
  cases mapGet uid permMap with
  | none => rfl
  | some ge => obtain ⟨g, e⟩ := ge; rfl

theorem included_grant_iff (nowMs : Int) (p : Permission) :
    included_grant nowMs p = true ↔
      ¬ p.available = 0 ∧ ¬ (p.expiry ≠ 0 ∧ p.expiry < expiryCutoff nowMs) := by
  simp only [included_grant, Bool.and_eq_true, Bool.or_eq_true, decide_eq_true_eq]
  omega

theorem perm_step_project (nowMs : Int) (uid : Int)
    (m : List (Int × (QuotaGroup × Int))) (p : Permission) :
    mapGet uid (process_permission nowMs m p) = resolve_step nowMs uid (mapGet uid m) p := by
  by_cases h1 : p.available = 0
  · simp [process_permission, resolve_step, h1]
  · by_cases h2 : p.expiry ≠ 0 ∧ p.expiry < expiryCutoff nowMs
    · simp [process_permission, resolve_step, h1, h2]
    · by_cases hu : p.uid = uid
      · subst hu
        cases hm : mapGet p.uid m with
        | none => simp [process_permission, resolve_step, h1, h2, hm, mapGet_insert]
        | some ge =>
          obtain ⟨old, e⟩ := ge
          by_cases hp : old.priority < (get_group p.permission.toLower).priority
          · simp [process_permission, resolve_step, h1, h2, hm, hp, mapGet_insert]
          · simp [process_permission, resolve_step, h1, h2, hm, hp]
      · cases hm : mapGet p.uid m with
        | none =>
          simp only [process_permission, resolve_step, if_neg h1, if_neg h2, if_neg hu, hm]
          rw [mapGet_insert]
          simp [hu]
        | some ge =>
          obtain ⟨old, e⟩ := ge
          by_cases hp : old.priority < (get_group p.permission.toLower).priority
          · simp only [process_permission, resolve_step, if_neg h1, if_neg h2, if_neg hu,
              hm, if_pos hp]
            rw [mapGet_insert]
            simp [hu]
          · simp [process_permission, resolve_step, h1, h2, hm, hp, hu]

theorem resolve_proj (nowMs : Int) (uid : Int) (perms : List Permission)
    (m : List (Int × (QuotaGroup × Int))) :
    mapGet uid (perms.foldl (process_permission nowMs) m) =
      perms.foldl (resolve_step nowMs uid) (mapGet uid m) := by
  induction perms generalizing m with
  | nil => rfl
  | cons p rest ih =>
    rw [List.foldl_cons, List.foldl_cons, ih, perm_step_project]

theorem resolved_group_eq (nowMs : Int) (perms : List Permission) (uid : Int) :
    resolved_group nowMs perms uid = group_of_opt (resolve_one nowMs uid perms) := by
  rw [resolved_group, group_of_eq_opt, get_user_group, resolve_proj]
  rfl

theorem resolve_step_shape (nowMs : Int) (uid : Int) (acc : Option (QuotaGroup × Int))
    (p : Permission) :
    resolve_step nowMs uid acc p = acc ∨
      (included_grant nowMs p = true ∧ p.uid = uid ∧
        resolve_step nowMs uid acc p =
          some (get_group p.permission.toLower, p.expiry)) := by
  by_cases h1 : p.available = 0
  · exact Or.inl (by simp [resolve_step, h1])
  · by_cases h2 : p.expiry ≠ 0 ∧ p.expiry < expiryCutoff nowMs
    · exact Or.inl (by simp [resolve_step, h1, h2])
    · have hinc : included_grant nowMs p = true := (included_grant_iff nowMs p).mpr ⟨h1, h2⟩
      by_cases hu : p.uid = uid
      · cases hacc : acc with
        | none => exact Or.inr ⟨hinc, hu, by simp [resolve_step, h1, h2, hu]⟩
        | some ge =>
          obtain ⟨old, e⟩ := ge
          by_cases hp : old.priority < (get_group p.permission.toLower).priority
          · exact Or.inr ⟨hinc, hu, by simp [resolve_step, h1, h2, hu, hp]⟩
          · exact Or.inl (by simp [resolve_step, h1, h2, hu, hp])
      · exact Or.inl (by simp [resolve_step, h1, h2, hu])

theorem resolve_step_prio_mono (nowMs : Int) (uid : Int) (acc : Option (QuotaGroup × Int))
    (p : Permission) :
    (group_of_opt acc).priority ≤ (group_of_opt (resolve_step nowMs uid acc p)).priority := by
  by_cases h1 : p.available = 0
  · simp [resolve_step, h1]
  · by_cases h2 : p.expiry ≠ 0 ∧ p.expiry < expiryCutoff nowMs
    · simp [resolve_step, h1, h2]
    · by_cases hu : p.uid = uid
      · cases hacc : acc with
        | none => simp [resolve_step, h1, h2, hu, group_of_opt, DEFAULT_GROUP]
        | some ge =>
          obtain ⟨old, e⟩ := ge
          by_cases hp : old.priority < (get_group p.permission.toLower).priority
          · simp [resolve_step, h1, h2, hu, hp, group_of_opt]
            omega
          · simp [resolve_step, h1, h2, hu, hp, group_of_opt]
      · simp [resolve_step, h1, h2, hu]

theorem resolve_fold_prio_mono (nowMs : Int) (uid : Int) (l : List Permission)
    (acc : Option (QuotaGroup × Int)) :
    (group_of_opt acc).priority ≤
      (group_of_opt (l.foldl (resolve_step nowMs uid) acc)).priority := by
  induction l generalizing acc with
  | nil => exact le_refl _
  | cons p rest ih =>
    exact le_trans (resolve_step_prio_mono nowMs uid acc p) (ih _)

theorem resolve_fold_prio_ub (nowMs : Int) (uid : Int) (l : List Permission)
    (acc : Option (QuotaGroup × Int)) (p : Permission) (hmem : p ∈ l)
    (hinc : included_grant nowMs p = true) (hu : p.uid = uid) :
    (get_group p.permission.toLower).priority ≤
      (group_of_opt (l.foldl (resolve_step nowMs uid) acc)).priority := by
  induction l generalizing acc with
  | nil => cases hmem
  | cons q rest ih =>
    rcases List.mem_cons.mp hmem with rfl | hmem2
    · rw [List.foldl_cons]
      refine le_trans ?_ (resolve_fold_prio_mono nowMs uid rest _)
      obtain ⟨hav, hsk⟩ := (included_grant_iff nowMs p).mp hinc
      cases hacc : acc with
      | none => simp [resolve_step, hav, hsk, hu, group_of_opt]
      | some ge =>
        obtain ⟨old, e⟩ := ge
        by_cases hp : old.priority < (get_group p.permission.toLower).priority
        · simp [resolve_step, hav, hsk, hu, hp, group_of_opt]
        · simp [resolve_step, hav, hsk, hu, hp, group_of_opt]
          omega
    · exact ih _ hmem2

theorem resolve_fold_attain (nowMs : Int) (uid : Int) (l : List Permission)
    (acc : Option (QuotaGroup × Int)) :
    group_of_opt (l.foldl (resolve_step nowMs uid) acc) = group_of_opt acc ∨
      ∃ p, p ∈ l ∧ included_grant nowMs p = true ∧ p.uid = uid ∧
        group_of_opt (l.foldl (resolve_step nowMs uid) acc) =
          get_group p.permission.toLower := by
  induction l generalizing acc with
  | nil => exact Or.inl rfl
  | cons p rest ih =>
    rw [List.foldl_cons]
    rcases ih (resolve_step nowMs uid acc p) with h | ⟨q, hq1, hq2, hq3, hq4⟩
    · rcases resolve_step_shape nowMs uid acc p with heq | ⟨hinc, hu, heq⟩
      · exact Or.inl (by rw [h, heq])
      · exact Or.inr ⟨p, List.mem_cons_self p rest, hinc, hu,
          by rw [h, heq]; rfl⟩
    · exact Or.inr ⟨q, List.mem_cons_of_mem _ hq1, hq2, hq3, hq4⟩

theorem resolve_fold_default (nowMs : Int) (uid : Int) (l : List Permission)
    (acc : Option (QuotaGroup × Int))
    (h : ∀ p ∈ l, p.uid = uid → included_grant nowMs p = false) :
    l.foldl (resolve_step nowMs uid) acc = acc := by
  induction l generalizing acc with
  | nil => rfl
  | cons p rest ih =>
    rw [List.foldl_cons]
    have hstep : resolve_step nowMs uid acc p = acc := by
      by_cases hu : p.uid = uid
      · have hninc := h p (List.mem_cons_self p rest) hu
        by_cases h1 : p.available = 0
        · simp [resolve_step, h1]
        · by_cases h2 : p.expiry ≠ 0 ∧ p.expiry < expiryCutoff nowMs
          · simp [resolve_step, h1, h2]
          · have : included_grant nowMs p = true := (included_grant_iff nowMs p).mpr ⟨h1, h2⟩
            rw [this] at hninc
            cases hninc
      · by_cases h1 : p.available = 0
        · simp [resolve_step, h1]
        · by_cases h2 : p.expiry ≠ 0 ∧ p.expiry < expiryCutoff nowMs
          · simp [resolve_step, h1, h2]
          · simp [resolve_step, h1, h2, hu]
    rw [hstep]
    exact ih _ (fun q hq => h q (List.mem_cons_of_mem _ hq))

theorem process_permission_skip (nowMs : Int) (m : List (Int × (QuotaGroup × Int)))
    (p : Permission) (h : included_grant nowMs p = false) :
    process_permission nowMs m p = m := by
  by_cases h1 : p.available = 0
  · simp [process_permission, h1]
  · by_cases h2 : p.expiry ≠ 0 ∧ p.expiry < expiryCutoff nowMs
    · simp [process_permission, h1, h2]
    · have : included_grant nowMs p = true := (included_grant_iff nowMs p).mpr ⟨h1, h2⟩
      rw [this] at h
      cases h

theorem get_user_group_filter_aux (nowMs : Int) (perms : List Permission)
    (m : List (Int × (QuotaGroup × Int))) :
    perms.foldl (process_permission nowMs) m =
      (perms.filter (included_grant nowMs)).foldl (process_permission nowMs) m := by
  induction perms generalizing m with
  | nil => rfl
  | cons p rest ih =>
    by_cases hi : included_grant nowMs p = true
    · rw [List.foldl_cons, List.filter_cons_of_pos hi, List.foldl_cons, ih]
    · rw [List.foldl_cons, process_permission_skip nowMs m p (by simpa using hi),
        List.filter_cons_of_neg (by simpa using hi), ih]

/-- Converse-direction bridge: size-in-MiB (as f32) strictly below an
integer cap exactly when the rounded byte count is below cap * 2 ^ 20. -/
theorem mibF32_lt_iff (n s : Int) : (mibF32 n < (s : Rat)) ↔ roundF32 n < s * 1048576 := by
  unfold mibF32
  rw [div_lt_iff₀ (by norm_num : (0 : Rat) < 1024 * 1024)]
  rw [show ((1024 : Rat) * 1024) = ((1048576 : Int) : Rat) by norm_num]
  rw [← Int.cast_mul]
  exact Int.cast_lt

/-- Converse-direction bridge for the non-strict comparison. -/
theorem mibF32_le_iff (n s : Int) : (mibF32 n ≤ (s : Rat)) ↔ roundF32 n ≤ s * 1048576 := by
  unfold mibF32
  rw [div_le_iff₀ (by norm_num : (0 : Rat) < 1024 * 1024)]
  rw [show ((1024 : Rat) * 1024) = ((1048576 : Int) : Rat) by norm_num]
  rw [← Int.cast_mul]
  exact Int.cast_le

theorem step_space_of_claimed (availableUsers : List Int)
    (permMap : List (Int × (QuotaGroup × Int))) (s : RecState) (up : UserPicture)
    (pic : Picture) (hm : mapGet up.pid s.pictureMap = some pic)
    (hpid : pic.pid = "added") :
    (process_user_picture availableUsers permMap s up).spaceMap = s.spaceMap := by
  by_cases ha : up.available = 1
  · by_cases hu : up.uid ∈ availableUsers
    · simp [process_user_picture, ha, hm, hu, hpid]
    · simp [process_user_picture, ha, hm, hu]
  · simp [process_user_picture, ha]

/-! The claims. -/

/-- Claim C6: every input link whose uid is absent from the available-user
set is in DisabledLinks, regardless of the quota state of the user, of
whether the referenced picture exists, and of whether the picture was
already claimed: every branch of the link loop that sees an unavailable
owner (or a disabled link, or a missing picture) pushes the link into the
disable vector. -/
theorem C6_unavailable_disabled (availableUsers : List Int) (pictures : List Picture)
    (userPictures : List UserPicture) (nowMs : Int) (permissions : List Permission)
    (up : UserPicture) (hmem : up ∈ userPictures) (hu : up.uid ∉ availableUsers) :
    up ∈ (get_used_pictures availableUsers pictures userPictures nowMs permissions).2.2 :=
  run_disable_of_unavailable availableUsers (get_user_group nowMs permissions)
    (init_state pictures) userPictures up hmem hu

/-- Witness for C6 at a concrete input: uid 2 is not among the available
users [1], so its link is disabled. -/
theorem C6_unavailable_disabled_witness :
    (⟨1, 2, "p", 1, "f"⟩ : UserPicture) ∈
      (get_used_pictures [1] [] [⟨1, 2, "p", 1, "f"⟩] 0 []).2.2 :=
  C6_unavailable_disabled [1] [] [⟨1, 2, "p", 1, "f"⟩] 0 [] ⟨1, 2, "p", 1, "f"⟩
    (by decide) (by decide)

/-- Claim C1 counterexample: link L2 = (id 2, uid 10, pid p1, available 0)
references picture p1, which the earlier link L1 has already claimed (the
map entry for p1 carries the sentinel pid after L1), yet L2 is added to
DisabledLinks: the availability test runs before the dedup test, so a
disabled later link to a claimed picture is not left untouched. -/
theorem C1_counterexample :
    (mapGet "p1" (run_links [10] (get_user_group 0 [])
        (init_state [⟨"p1", 100, "o", "t", "w"⟩])
        [⟨1, 10, "p1", 1, "f1"⟩]).pictureMap).map Picture.pid = some "added" ∧
    (⟨2, 10, "p1", 0, "f2"⟩ : UserPicture) ∈
      (get_used_pictures [10] [⟨"p1", 100, "o", "t", "w"⟩]
        [⟨1, 10, "p1", 1, "f1"⟩, ⟨2, 10, "p1", 0, "f2"⟩] 0 []).2.2 := by
  exact ⟨by decide, by decide⟩

/-- Claim C1 (amended): when the later link additionally passes the checks
that precede the dedup test — it is enabled (available = 1) and its owner
uid is in the available-user set — a link referencing an already claimed
picture is left completely untouched: the loop body returns the state
unchanged, so the link is not added to DisabledLinks, the picture is not
added to UsedPictures again, and the owner space total is unchanged; only
the first link claiming a picture is charged. -/
theorem C1_dedup_untouched (availableUsers : List Int)
    (permMap : List (Int × (QuotaGroup × Int))) (s : RecState) (up : UserPicture)
    (pic : Picture) (ha : up.available = 1) (hm : mapGet up.pid s.pictureMap = some pic)
    (hpid : pic.pid = "added") (hu : up.uid ∈ availableUsers) :
    process_user_picture availableUsers permMap s up = s :=
  step_noop_of_claimed availableUsers permMap s up pic ha hm hpid hu

/-- Witness for the amended C1 at a concrete input. -/
theorem C1_dedup_untouched_witness :
    process_user_picture [10] []
        ⟨[("p1", ⟨"added", 100, "o", "t", "w"⟩)], [(10, 100)], [], []⟩
        ⟨2, 10, "p1", 1, "f2"⟩ =
      ⟨[("p1", ⟨"added", 100, "o", "t", "w"⟩)], [(10, 100)], [], []⟩ :=
  C1_dedup_untouched [10] [] ⟨[("p1", ⟨"added", 100, "o", "t", "w"⟩)], [(10, 100)], [], []⟩
    ⟨2, 10, "p1", 1, "f2"⟩ ⟨"added", 100, "o", "t", "w"⟩ rfl (by decide) rfl (by decide)

/-- Claim C10: an input Picture whose pid is the literal sentinel string
"added" is treated as claimed from the start: it is never in UsedPictures,
never in UnusedPictures, a link whose map lookup hits a sentinel entry
never changes any owner space total, and an enabled link of an available
user referencing such an entry leaves the loop state entirely untouched. -/
theorem C10_sentinel_escape (availableUsers : List Int) (pictures : List Picture)
    (userPictures : List UserPicture) (nowMs : Int) (permissions : List Permission)
    (p : Picture) (hp : p.pid = "added") :
    (p ∉ (get_used_pictures availableUsers pictures userPictures nowMs permissions).2.1 ∧
      p ∉ (get_used_pictures availableUsers pictures userPictures nowMs permissions).1) ∧
    (∀ (permMap : List (Int × (QuotaGroup × Int))) (s : RecState) (up : UserPicture)
        (pic : Picture), mapGet up.pid s.pictureMap = some pic → pic.pid = "added" →
      (process_user_picture availableUsers permMap s up).spaceMap = s.spaceMap) ∧
    (∀ (permMap : List (Int × (QuotaGroup × Int))) (s : RecState) (up : UserPicture)
        (pic : Picture), up.available = 1 → mapGet up.pid s.pictureMap = some pic →
      pic.pid = "added" → up.uid ∈ availableUsers →
      process_user_picture availableUsers permMap s up = s) := by
  refine ⟨⟨?_, ?_⟩, ?_, ?_⟩
  · intro hmem
    rcases run_used_sub availableUsers (get_user_group nowMs permissions)
        (init_state pictures) userPictures p hmem with h | h
    · simp [init_state] at h
    · exact h hp
  · intro hmem
    rcases List.mem_filter.mp hmem with ⟨_, h2⟩
    rw [decide_eq_true_eq] at h2
    exact h2 hp
  · intro permMap s up pic hm hpid
    exact step_space_of_claimed availableUsers permMap s up pic hm hpid
  · intro permMap s up pic ha hm hpid hu
    exact step_noop_of_claimed availableUsers permMap s up pic ha hm hpid hu

/-- Witness for C10 at a concrete input: a picture with pid "added",
referenced by an enabled link of an available user, appears in neither
output set. -/
theorem C10_sentinel_escape_witness :
    (⟨"added", 7, "o", "t", "w"⟩ : Picture) ∉
      (get_used_pictures [1] [⟨"added", 7, "o", "t", "w"⟩]
        [⟨1, 1, "added", 1, "f"⟩] 0 []).2.1 ∧
    (⟨"added", 7, "o", "t", "w"⟩ : Picture) ∉
      (get_used_pictures [1] [⟨"added", 7, "o", "t", "w"⟩]
        [⟨1, 1, "added", 1, "f"⟩] 0 []).1 :=
  (C10_sentinel_escape [1] [⟨"added", 7, "o", "t", "w"⟩] [⟨1, 1, "added", 1, "f"⟩] 0 []
    ⟨"added", 7, "o", "t", "w"⟩ rfl).1

/-- Claim C3: throughout link processing every recorded space total stays
strictly below the owner tier storage cap (in MiB, under the exact f32
reading mibF32), for every prefix of the input links; and an eligible,
unclaimed candidate link whose picture would bring the owner usage to a
MiB value greater than or equal to the cap is disabled without claiming
the picture — in particular a link reaching exactly the cap is disabled,
because the comparison is greater-or-equal. -/
theorem C3_storage_cap (availableUsers : List Int) (pictures : List Picture)
    (userPictures : List UserPicture) (nowMs : Int) (permissions : List Permission) :
    (∀ pre suf, userPictures = pre ++ suf →
      ∀ uid v, mapGet uid (run_links availableUsers (get_user_group nowMs permissions)
          (init_state pictures) pre).spaceMap = some v →
        mibF32 v < (((resolved_group nowMs permissions uid).storage : Int) : Rat)) ∧
    (∀ (s : RecState) (up : UserPicture) (pic : Picture),
      up.available = 1 → mapGet up.pid s.pictureMap = some pic →
      pic.pid ≠ "added" → up.uid ∈ availableUsers →
      (((resolved_group nowMs permissions up.uid).storage : Int) : Rat) ≤
        mibF32 ((mapGet up.uid s.spaceMap).getD 0 + pic.size) →
      process_user_picture availableUsers (get_user_group nowMs permissions) s up =
        { s with disableVec := s.disableVec ++ [up] }) := by
  constructor
  · intro pre suf heq uid v hv
    rw [mibF32_lt_iff]
    refine run_space_inv availableUsers (get_user_group nowMs permissions)
      (init_state pictures) pre ?_ uid v hv
    intro uid2 v2 h2
    simp [init_state, mapGet] at h2
  · intro s up pic ha hm hpid hu hs
    exact step_disable_of_storage availableUsers (get_user_group nowMs permissions)
      s up pic ha hm hpid hu ((le_mibF32_iff _ _).mp hs)

/-- Witness for C3 at a concrete input: default tier (storage cap 2048
MiB), single picture of exactly 2048 MiB = 2 ^ 31 bytes; the usage would
reach exactly the cap, and the link is disabled without claiming. -/
theorem C3_storage_cap_witness :
    process_user_picture [10] (get_user_group 0 [])
        ⟨[("p", ⟨"p", 2147483648, "o", "t", "w"⟩)], [], [], []⟩ ⟨1, 10, "p", 1, "f"⟩ =
      ⟨[("p", ⟨"p", 2147483648, "o", "t", "w"⟩)], [], [], [⟨1, 10, "p", 1, "f"⟩]⟩ := by
  refine (C3_storage_cap [10] [⟨"p", 2147483648, "o", "t", "w"⟩] [⟨1, 10, "p", 1, "f"⟩]
      0 []).2 ⟨[("p", ⟨"p", 2147483648, "o", "t", "w"⟩)], [], [], []⟩ ⟨1, 10, "p", 1, "f"⟩
      ⟨"p", 2147483648, "o", "t", "w"⟩ rfl (by decide) (by decide) (by decide) ?_
  exact (le_mibF32_iff 2048 ((mapGet (10 : Int) ([] : List (Int × Int))).getD 0 +
    2147483648)).mpr (by decide)

/-- Claim C4: for an eligible, unclaimed link that fits in the remaining
storage, the per-file check is a strict greater-than on the MiB reading:
a picture strictly above the tier per-file cap is disabled (file too
large) even though total quota remains, while a picture whose MiB size is
less than or equal to the cap — in particular exactly equal — is accepted
and claimed. -/
theorem C4_per_file_cap (availableUsers : List Int) (nowMs : Int)
    (permissions : List Permission) :
    (∀ (s : RecState) (up : UserPicture) (pic : Picture),
      up.available = 1 → mapGet up.pid s.pictureMap = some pic →
      pic.pid ≠ "added" → up.uid ∈ availableUsers →
      mibF32 ((mapGet up.uid s.spaceMap).getD 0 + pic.size) <
        (((resolved_group nowMs permissions up.uid).storage : Int) : Rat) →
      (((resolved_group nowMs permissions up.uid).restrictions : Int) : Rat) <
        mibF32 pic.size →
      process_user_picture availableUsers (get_user_group nowMs permissions) s up =
        { s with disableVec := s.disableVec ++ [up] }) ∧
    (∀ (s : RecState) (up : UserPicture) (pic : Picture),
      up.available = 1 → mapGet up.pid s.pictureMap = some pic →
      pic.pid ≠ "added" → up.uid ∈ availableUsers →
      mibF32 ((mapGet up.uid s.spaceMap).getD 0 + pic.size) <
        (((resolved_group nowMs permissions up.uid).storage : Int) : Rat) →
      mibF32 pic.size ≤
        (((resolved_group nowMs permissions up.uid).restrictions : Int) : Rat) →
      process_user_picture availableUsers (get_user_group nowMs permissions) s up =
        { s with
          spaceMap := mapInsert up.uid ((mapGet up.uid s.spaceMap).getD 0 + pic.size)
            s.spaceMap
          usedVec := s.usedVec ++ [pic]
          pictureMap := mapInsert up.pid { pic with pid := "added" } s.pictureMap }) := by
  constructor
  · intro s up pic ha hm hpid hu hsOk hr
    simp only [resolved_group] at hsOk hr
    rw [mibF32_lt_iff] at hsOk
    rw [lt_mibF32_iff] at hr
    exact step_disable_of_too_large availableUsers (get_user_group nowMs permissions)
      s up pic ha hm hpid hu (by omega) hr
  · intro s up pic ha hm hpid hu hsOk hr
    simp only [resolved_group] at hsOk hr
    rw [mibF32_lt_iff] at hsOk
    rw [mibF32_le_iff] at hr
    exact step_accept availableUsers (get_user_group nowMs permissions)
      s up pic ha hm hpid hu (by omega) (by omega)

/-- Witness for C4 at concrete inputs: under the default tier (per-file
cap 50 MiB), a 100 MiB picture is disabled although storage remains, and
a picture of exactly 50 MiB = 52428800 bytes is accepted and claimed. -/
theorem C4_per_file_cap_witness :
    process_user_picture [10] (get_user_group 0 [])
        ⟨[("p", ⟨"p", 104857600, "o", "t", "w"⟩)], [], [], []⟩ ⟨1, 10, "p", 1, "f"⟩ =
      ⟨[("p", ⟨"p", 104857600, "o", "t", "w"⟩)], [], [], [⟨1, 10, "p", 1, "f"⟩]⟩ ∧
    process_user_picture [10] (get_user_group 0 [])
        ⟨[("q", ⟨"q", 52428800, "o", "t", "w"⟩)], [], [], []⟩ ⟨2, 10, "q", 1, "g"⟩ =
      ⟨[("q", ⟨"added", 52428800, "o", "t", "w"⟩)], [(10, 52428800)],
        [⟨"q", 52428800, "o", "t", "w"⟩], []⟩ := by
  constructor
  · refine (C4_per_file_cap [10] 0 []).1 ⟨[("p", ⟨"p", 104857600, "o", "t", "w"⟩)], [], [], []⟩
      ⟨1, 10, "p", 1, "f"⟩ ⟨"p", 104857600, "o", "t", "w"⟩ rfl (by decide) (by decide)
      (by decide) ?_ ?_
    · exact (mibF32_lt_iff ((mapGet (10 : Int) ([] : List (Int × Int))).getD 0 + 104857600)
        2048).mpr (by decide)
    · exact (lt_mibF32_iff 50 104857600).mpr (by decide)
  · refine (C4_per_file_cap [10] 0 []).2 ⟨[("q", ⟨"q", 52428800, "o", "t", "w"⟩)], [], [], []⟩
      ⟨2, 10, "q", 1, "g"⟩ ⟨"q", 52428800, "o", "t", "w"⟩ rfl (by decide) (by decide)
      (by decide) ?_ ?_
    · exact (mibF32_lt_iff ((mapGet (10 : Int) ([] : List (Int × Int))).getD 0 + 52428800)
        2048).mpr (by decide)
    · exact (mibF32_le_iff 52428800 50).mpr (by decide)

/-- Claim C5 counterexample: the input picture with pid "added" is
referenced by zero enabled links (there are no links at all), so it ends
processing without any link having claimed it, yet it is not placed in
UnusedPictures (and is not in UsedPictures either): the final loop keys
the unclaimed test on the pid field, which collides with the sentinel. -/
theorem C5_counterexample :
    (⟨"added", 5, "o", "t", "w"⟩ : Picture) ∉
      (get_used_pictures [] [⟨"added", 5, "o", "t", "w"⟩] [] 0 []).1 ∧
    (get_used_pictures [] [⟨"added", 5, "o", "t", "w"⟩] [] 0 []).2.1 = [] := by
  exact ⟨by decide, by decide⟩

/-- Claim C5 (amended): for input pictures with pairwise distinct pids,
every input picture whose map entry is still unclaimed after link
processing (the entry was not replaced by a sentinel-marked copy) is
placed in UnusedPictures — except that a picture whose own pid is the
literal string "added" is treated as claimed from the start and is placed
in neither output set. -/
theorem C5_unused_complete (availableUsers : List Int) (pictures : List Picture)
    (userPictures : List UserPicture) (nowMs : Int) (permissions : List Permission)
    (P : Picture) (hnd : (pictures.map Picture.pid).Nodup) (hP : P ∈ pictures)
    (hq : ∃ q, mapGet P.pid (run_links availableUsers (get_user_group nowMs permissions)
        (init_state pictures) userPictures).pictureMap = some q ∧ q.pid ≠ "added") :
    P ∈ (get_used_pictures availableUsers pictures userPictures nowMs permissions).1 := by
  obtain ⟨q, hq1, hq2⟩ := hq
  have hback : mapGet P.pid (init_state pictures).pictureMap = some q :=
    run_pictureMap_preserve availableUsers (get_user_group nowMs permissions)
      (init_state pictures) userPictures P.pid q hq1 hq2
  have hinit : mapGet P.pid (init_state pictures).pictureMap = some P :=
    mapGet_build pictures hnd P hP []
  have hqP : q = P := by
    rw [hinit] at hback
    exact (Option.some.inj hback).symm
  subst hqP
  refine List.mem_filter.mpr ⟨mem_map_snd_of_mapGet hq1, ?_⟩
  simpa using hq2

/-- Witness for the amended C5 at a concrete input: one picture, zero
links; the picture ends unclaimed and appears in UnusedPictures. -/
theorem C5_unused_complete_witness :
    (⟨"p1", 5, "o", "t", "w"⟩ : Picture) ∈
      (get_used_pictures [] [⟨"p1", 5, "o", "t", "w"⟩] [] 0 []).1 :=
  C5_unused_complete [] [⟨"p1", 5, "o", "t", "w"⟩] [] 0 [] ⟨"p1", 5, "o", "t", "w"⟩
    (by decide) (by decide) ⟨⟨"p1", 5, "o", "t", "w"⟩, by decide, by decide⟩

/-- Claim C9: with pairwise distinct link ids, the surviving-link-id
output is exactly the ids of the input links that are not in
DisabledLinks: for every input link, its id survives iff the link is not
disabled, and no disabled link has its id in the surviving set. -/
theorem C9_surviving_ids (availableUsers : List Int) (pictures : List Picture)
    (userPictures : List UserPicture) (nowMs : Int) (permissions : List Permission)
    (hids : (userPictures.map UserPicture.id).Nodup) :
    (∀ up ∈ userPictures,
      (up.id ∈ get_used_user_picture
          (get_used_pictures availableUsers pictures userPictures nowMs permissions).2.2
          userPictures ↔
        up ∉ (get_used_pictures availableUsers pictures userPictures nowMs
          permissions).2.2)) ∧
    (∀ d ∈ (get_used_pictures availableUsers pictures userPictures nowMs permissions).2.2,
      d.id ∉ get_used_user_picture
        (get_used_pictures availableUsers pictures userPictures nowMs permissions).2.2
        userPictures) := by
  have hsub : ∀ d ∈ (get_used_pictures availableUsers pictures userPictures nowMs
      permissions).2.2, d ∈ userPictures := by
    intro d hd
    rcases run_disable_sub availableUsers (get_user_group nowMs permissions)
        (init_state pictures) userPictures d hd with h | h
    · simp [init_state] at h
    · exact h
  have hiff : ∀ up ∈ userPictures,
      (up.id ∈ get_used_user_picture
          (get_used_pictures availableUsers pictures userPictures nowMs permissions).2.2
          userPictures ↔
        up ∉ (get_used_pictures availableUsers pictures userPictures nowMs
          permissions).2.2) := by
    intro up hmem
    rw [mem_get_used_user_picture]
    constructor
    · rintro ⟨w, hw1, hw2, hw3⟩ hup
      have hweq : w = up := List.inj_on_of_nodup_map hids hw1 hmem hw3
      exact hw2 (by rw [hweq]; exact hup)
    · intro hup
      exact ⟨up, hmem, hup, rfl⟩
  refine ⟨hiff, ?_⟩
  intro d hd
  rw [hiff d (hsub d hd)]
  exact not_not_intro hd

/-- Witness for C9 at a concrete input: one link disabled for lack of an
available user, one surviving link; ids split accordingly. -/
theorem C9_surviving_ids_witness :
    ((1 : Int) ∈ get_used_user_picture
        (get_used_pictures [1] [⟨"p", 7, "o", "t", "w"⟩]
          [⟨1, 1, "p", 1, "f"⟩, ⟨2, 2, "p", 1, "g"⟩] 0 []).2.2
        [⟨1, 1, "p", 1, "f"⟩, ⟨2, 2, "p", 1, "g"⟩] ↔
      (⟨1, 1, "p", 1, "f"⟩ : UserPicture) ∉
        (get_used_pictures [1] [⟨"p", 7, "o", "t", "w"⟩]
          [⟨1, 1, "p", 1, "f"⟩, ⟨2, 2, "p", 1, "g"⟩] 0 []).2.2) :=
  (C9_surviving_ids [1] [⟨"p", 7, "o", "t", "w"⟩]
      [⟨1, 1, "p", 1, "f"⟩, ⟨2, 2, "p", 1, "g"⟩] 0 [] (by decide)).1
    ⟨1, 1, "p", 1, "f"⟩ (by decide)

/-- Claim C2 counterexample: a delete that succeeds with zero affected
rows hits assert_eq!(rows_affected, 1), which panics the task instead of
logging an error; the remaining deletion of the second row never runs and
the caller, which awaits the join handle with unwrap, aborts the run
(result none). -/
theorem C2_counterexample :
    delete_database (fun r : Int => if r = 1 then DeleteResult.ok 0 else DeleteResult.ok 1)
      [1, 2] = none := by
  decide

/-- Claim C2 (amended): only the error-return path is isolated.  The run
panics (aborts) exactly when some delete succeeds with an affected-row
count other than one; when every successful delete affects exactly one
row, every row of the unit is processed and the rows whose delete returned
a driver error are logged and skipped while the remaining deletions
proceed. -/
theorem C2_delete_isolation {α : Type} (exec : α → DeleteResult) (rows : List α) :
    (delete_database exec rows = none ↔
      ∃ r ∈ rows, ∃ n, exec r = DeleteResult.ok n ∧ n ≠ 1) ∧
    ((∀ r ∈ rows, ∀ n, exec r = DeleteResult.ok n → n = 1) →
      delete_database exec rows =
        some ⟨rows, rows.filter (fun r => (exec r).isErr)⟩) :=
  ⟨delete_database_none_iff exec rows, delete_database_ok exec rows⟩

/-- Witness for the amended C2 at a concrete input: the first delete
returns a driver error and is logged, the second succeeds with one row;
both rows are processed and the run completes. -/
theorem C2_delete_isolation_witness :
    delete_database (fun r : Int => if r = 1 then DeleteResult.err "db" else DeleteResult.ok 1)
      [1, 2] = some ⟨[1, 2], [1]⟩ := by
  refine (C2_delete_isolation
    (fun r : Int => if r = 1 then DeleteResult.err "db" else DeleteResult.ok 1) [1, 2]).2 ?_
  intro r hr n hn
  fin_cases hr <;> simp_all

/-- Claim C8: in the trash-pruning loop, every subdirectory whose name
parses to a date instant earlier than a week before now is removed
(recursively, via remove_dir_all), and every subdirectory whose name fails
to parse is logged as an error and left untouched, while the loop
continues over the remaining directories either way.  The chrono
parse of name + " 00:00:00 +0800" (midnight at the fixed UTC+8 offset)
and the filesystem are external collaborators, abstracted as the `parse`
oracle and the removed/logged output lists. -/
theorem C8_trash_retention (parse : String → Option Int) (aWeekEarlier : Int)
    (dirs : List String) (name : String) (hmem : name ∈ dirs) :
    (∀ t, parse name = some t → t < aWeekEarlier →
      name ∈ (check_trash_dir parse aWeekEarlier dirs).removed) ∧
    (parse name = none →
      name ∈ (check_trash_dir parse aWeekEarlier dirs).logged ∧
      name ∉ (check_trash_dir parse aWeekEarlier dirs).removed) := by
  constructor
  · intro t ht hlt
    exact (trash_removed_iff parse aWeekEarlier dirs ⟨[], []⟩ name).mpr
      (Or.inr ⟨hmem, t, ht, hlt⟩)
  · intro hp
    constructor
    · exact (trash_logged_iff parse aWeekEarlier dirs ⟨[], []⟩ name).mpr
        (Or.inr ⟨hmem, hp⟩)
    · intro hr
      rcases (trash_removed_iff parse aWeekEarlier dirs ⟨[], []⟩ name).mp hr with
        h | ⟨_, t, ht, _⟩
      · simp at h
      · rw [hp] at ht
        cases ht
/-- Witness for C8 at a concrete input: with now more than seven days
after 2020-01-01 (midnight UTC+8 is instant 1577808000000), the directory
named 2020-01-01 is removed and the directory named not-a-date is logged
and kept. -/
theorem C8_trash_retention_witness :
    "2020-01-01" ∈ (check_trash_dir
        (fun s => if s = "2020-01-01" then some 1577808000000 else none)
        1600000000000 ["not-a-date", "2020-01-01"]).removed ∧
    "not-a-date" ∈ (check_trash_dir
        (fun s => if s = "2020-01-01" then some 1577808000000 else none)
        1600000000000 ["not-a-date", "2020-01-01"]).logged ∧
    "not-a-date" ∉ (check_trash_dir
        (fun s => if s = "2020-01-01" then some 1577808000000 else none)
        1600000000000 ["not-a-date", "2020-01-01"]).removed := by
  have h1 := (C8_trash_retention
    (fun s => if s = "2020-01-01" then some 1577808000000 else none)
    1600000000000 ["not-a-date", "2020-01-01"] "2020-01-01" (by decide)).1
    1577808000000 (by decide) (by decide)
  have h2 := (C8_trash_retention
    (fun s => if s = "2020-01-01" then some 1577808000000 else none)
    1600000000000 ["not-a-date", "2020-01-01"] "not-a-date" (by decide)).2 (by decide)
  exact ⟨h1, h2.1, h2.2⟩

/-- Claim C7: quota resolution ignores unavailable grants and grants whose
nonzero expiry lies more than 180 days in the past (filtering the grant
list to the included grants leaves the result unchanged), every included
grant of a user bounds the priority of the resolved tier from below, the
resolved tier is the default or comes from some included grant of that
user (so the highest-priority included grant determines the tier), and a
user none of whose grants is included resolves to the default tier, which
is priority 0, 2048 MiB storage, 50 MiB per file. -/
theorem C7_quota_resolution (nowMs : Int) (perms : List Permission) (uid : Int) :
    get_user_group nowMs perms = get_user_group nowMs (perms.filter (included_grant nowMs)) ∧
    (∀ p ∈ perms, included_grant nowMs p = true → p.uid = uid →
      (get_group p.permission.toLower).priority ≤
        (resolved_group nowMs perms uid).priority) ∧
    (resolved_group nowMs perms uid = DEFAULT_GROUP ∨
      ∃ p, p ∈ perms ∧ included_grant nowMs p = true ∧ p.uid = uid ∧
        resolved_group nowMs perms uid = get_group p.permission.toLower) ∧
    ((∀ p ∈ perms, p.uid = uid → included_grant nowMs p = false) →
      resolved_group nowMs perms uid = DEFAULT_GROUP) ∧
    DEFAULT_GROUP = ⟨0, 2048, 50⟩ := by
  refine ⟨get_user_group_filter_aux nowMs perms [], ?_, ?_, ?_, rfl⟩
  · intro p hp hinc hu
    rw [resolved_group_eq]
    exact resolve_fold_prio_ub nowMs uid perms none p hp hinc hu
  · rw [resolved_group_eq]
    rcases resolve_fold_attain nowMs uid perms none with h | ⟨p, h1, h2, h3, h4⟩
    · exact Or.inl (by rw [show resolve_one nowMs uid perms =
        perms.foldl (resolve_step nowMs uid) none from rfl, h]; rfl)
    · exact Or.inr ⟨p, h1, h2, h3, h4⟩
  · intro h
    rw [resolved_group_eq]
    rw [show resolve_one nowMs uid perms =
      perms.foldl (resolve_step nowMs uid) none from rfl]
    rw [resolve_fold_default nowMs uid perms none h]
    rfl

/-- Witness for C7 at concrete inputs: a grant expired 10 days ago still
drives the resolved tier priority, while a user whose only grant expired
200 days ago resolves to the default tier. -/
theorem C7_quota_resolution_witness :
    (get_group "started".toLower).priority ≤
      (resolved_group 1740000000000
        [⟨1, "started", 1740000000000 - 10 * 86400000, 1⟩] 1).priority ∧
    resolved_group 1740000000000
      [⟨1, "professional", 1740000000000 - 200 * 86400000, 1⟩] 1 = DEFAULT_GROUP :=
  by
  constructor
  · exact (C7_quota_resolution 1740000000000
      [⟨1, "started", 1740000000000 - 10 * 86400000, 1⟩] 1).2.1
      ⟨1, "started", 1740000000000 - 10 * 86400000, 1⟩ (by decide) (by decide) rfl
  · exact (C7_quota_resolution 1740000000000
      [⟨1, "professional", 1740000000000 - 200 * 86400000, 1⟩] 1).2.2.2.1 (by decide)
